import Mathlib

/-!
Shallow embedding of the conversion subsystem in `src/from.rs` of the fixed-width
unsigned big-integer library. A `Uint<BITS, LIMBS>` value is represented by its
numeric value, a natural number below `2 ^ BITS`; the limb primitives the spec
declares as a provided collaborator surface (limb access, masks, shifts, bit
length) are modelled from their documented semantics. All machine-integer
arithmetic is on `Nat`/`Int` with explicit reduction modulo `2 ^ 64` (or the
Uint width) wherever the source arithmetic can wrap.
-/

namespace UintFrom

/-- Error for conversions into the big integer, mirroring `ToUintError` in
src/from.rs (lines 39-52). The payload is the wrapped (masked) value. -/
inductive ToUintError where
  | valueTooLarge (bits : Nat) (value : Nat)
  | valueNegative (bits : Nat) (value : Nat)
  | notANumber (bits : Nat)
deriving DecidableEq

/-- Error for conversions out of the big integer, mirroring `FromUintError` in
src/from.rs (lines 79-85): width, truncated value, destination maximum. -/
inductive FromUintError where
  | overflow (bits : Nat) (value : Nat) (max : Nat)
deriving DecidableEq

instance : DecidableEq (Except ToUintError Nat) := fun a b =>
  match a, b with
  | .ok x, .ok y => if h : x = y then .isTrue (by rw [h]) else .isFalse (by simp [h])
  | .error x, .error y => if h : x = y then .isTrue (by rw [h]) else .isFalse (by simp [h])
  | .ok _, .error _ => .isFalse (by simp)
  | .error _, .ok _ => .isFalse (by simp)

instance : DecidableEq (Except FromUintError Nat) := fun a b =>
  match a, b with
  | .ok x, .ok y => if h : x = y then .isTrue (by rw [h]) else .isFalse (by simp [h])
  | .error x, .error y => if h : x = y then .isTrue (by rw [h]) else .isFalse (by simp [h])
  | .ok _, .error _ => .isFalse (by simp)
  | .error _, .ok _ => .isFalse (by simp)

/-- Modelled from the spec: number of 64-bit limbs of a width,
`limbs = ceil(width / 64)` (spec section 3, data model). -/
def nlimbs (bits : Nat) : Nat := (bits + 63) / 64

/-- Modelled from the spec: the width-respecting mask for the partially filled top
limb (spec section 6, collaborator contract; `Self::MASK` in the source). -/
def MASK (bits : Nat) : Nat :=
  if bits = 0 then 0
  else if bits % 64 = 0 then 2 ^ 64 - 1
  else 2 ^ (bits % 64) - 1

/-- Modelled from the spec: the maximum value of the width (`Self::MAX`). -/
def MAX (bits : Nat) : Nat := 2 ^ bits - 1

/-- Modelled from the spec: value represented by a little-endian limb sequence
(spec section 6, construction from a full limb sequence). -/
def from_limbs : List Nat → Nat
  | [] => 0
  | l :: ls => l + 2 ^ 64 * from_limbs ls

/-- Modelled from the spec: limb `i` of a value (little-endian 64-bit words). -/
def limb (v i : Nat) : Nat := v / 2 ^ (64 * i) % 2 ^ 64

/-- Modelled from the spec: the limb sequence of a value at a given width. -/
def limbsOf (BITS v : Nat) : List Nat := (List.range (nlimbs BITS)).map (limb v)

/-- Modelled from the spec: bit length of a value (spec section 6). -/
def bit_len (v : Nat) : Nat := Nat.size v

/-- Modelled from the spec: leading-zero count of a value at a width (spec
sections 4.5 and 6); equals the width minus the bit length. -/
def leading_zeros (BITS v : Nat) : Nat := BITS - bit_len v

/-- Shallow embedding of `Uint::limbs_gt` (src/from.rs lines 332-349): whether the
value is larger than `64 * n` bits. -/
def limbs_gt (BITS v n : Nat) : Bool :=
  if nlimbs BITS < n then false
  else if BITS ≤ 512 then
    ((limbsOf BITS v).drop n).foldl (fun acc l => acc ||| l) 0 != 0
  else decide (bit_len v > 64 * n)

/-- Shallow embedding of `Uint::gt_u64_max` (src/from.rs lines 320-324). -/
def gt_u64_max (BITS v : Nat) : Bool := limbs_gt BITS v 1

/-- Shallow embedding of `impl TryFrom<u64> for Uint` (src/from.rs lines 424-443).
The argument is a u64 value, a natural below `2 ^ 64`. -/
def tryFromU64 (BITS : Nat) (value : Nat) : Except ToUintError Nat :=
  if nlimbs BITS ≤ 1 ∧ value > MASK BITS then
    .error (.valueTooLarge BITS
      (from_limbs (List.replicate (nlimbs BITS) (value &&& MASK BITS))))
  else if nlimbs BITS = 0 then .ok 0
  else .ok (from_limbs (value :: List.replicate (nlimbs BITS - 1) 0))

/-- Shallow embedding of `impl TryFrom<u128> for Uint` (src/from.rs lines 446-470).
The argument is a u128 value, a natural below `2 ^ 128`. -/
def tryFromU128 (BITS : Nat) (value : Nat) : Except ToUintError Nat :=
  if value ≤ 2 ^ 64 - 1 then tryFromU64 BITS value
  else if nlimbs BITS < 2 then
    match tryFromU64 BITS (value % 2 ^ 64) with
    | .ok n => .error (.valueTooLarge BITS n)
    | .error e => .error e
  else
    let limb0 := value % 2 ^ 64
    let limb1 := value / 2 ^ 64 % 2 ^ 64
    if nlimbs BITS = 2 ∧ limb1 > MASK BITS then
      .error (.valueTooLarge BITS (from_limbs [limb0, limb1 &&& MASK BITS]))
    else
      .ok (from_limbs (limb0 :: limb1 :: List.replicate (nlimbs BITS - 2) 0))

/-- Shallow embedding of the `impl_from_signed_int!` instances (src/from.rs lines
494-521) for the source types routed through the u64 rule (i8/i16/i32/i64, with
`sw` the bit width of the corresponding unsigned type). The cast `value as $uint`
is the two's-complement bit pattern, zero-extended to u64. The unnamed last arm
models the `unreachable!()` in the source by passing the error through. -/
def tryFromSigned (sw BITS : Nat) (value : Int) : Except ToUintError Nat :=
  let u : Nat := (value % (2 ^ sw : Int)).toNat
  if value < 0 then
    match tryFromU64 BITS u with
    | .ok n => .error (.valueNegative BITS n)
    | .error (.valueTooLarge _ n) => .error (.valueNegative BITS n)
    | .error e => .error e
  else tryFromU64 BITS u

/-- Shallow embedding of `Uint::saturating_from` (src/from.rs lines 186-197),
as a function of the fallible primitive's outcome. -/
def saturating_from (BITS : Nat) (r : Except ToUintError Nat) : Nat :=
  match r with
  | .ok n => n
  | .error (.valueTooLarge _ _) => MAX BITS
  | .error (.valueNegative _ _) => 0
  | .error (.notANumber _) => 0

/-- `saturating_from` applied to a u64 source. -/
def saturating_from_u64 (BITS value : Nat) : Nat :=
  saturating_from BITS (tryFromU64 BITS value)

/-- `saturating_from` applied to a signed native integer routed through the u64 rule. -/
def saturating_from_signed (sw BITS : Nat) (x : Int) : Nat :=
  saturating_from BITS (tryFromSigned sw BITS x)

/-- Shallow embedding of the `to_int!` macro instance (src/from.rs lines 646-672)
for an unsigned destination of width `dbits` (at most 64); `dbits = 64` gives
`TryFrom<&Uint> for u64`. The cast `limbs[0] as Self` truncates to `dbits` bits. -/
def uint_to_int (BITS dbits v : Nat) : Except FromUintError Nat :=
  if BITS = 0 then .ok 0
  else if gt_u64_max BITS v = true ∨ limb v 0 > 2 ^ dbits - 1 then
    .error (.overflow BITS (limb v 0 % 2 ^ dbits) (2 ^ dbits - 1))
  else .ok (limb v 0 % 2 ^ dbits)

/-- Modelled from IEEE-754 semantics: the f64 comparison `value < 0.5` applied to
the bit pattern `rep` of the source value (src/from.rs line 542). Every value with
the sign bit set other than a NaN (including -0.0 and negative infinity) is below
0.5; a NaN compares false; nonnegative values compare by bit pattern against
`0x3FE0000000000000`, the pattern of 0.5. -/
def f64_lt_half (rep : Nat) : Bool :=
  if rep &&& 2 ^ 63 = 0 then decide (rep &&& (2 ^ 63 - 1) < 0x3FE0000000000000)
  else decide (rep &&& (2 ^ 63 - 1) ≤ 0x7FF0000000000000)

/-- Shallow embedding of `impl TryFrom<f64> for Uint` (src/from.rs lines 524-593).
The input is the IEEE-754 binary64 bit pattern of the source value (a natural
below `2 ^ 64`). The result `none` models the panic of the internal `Self::from`
call when the shifted or rounded value does not fit the width. The source's
`fixint_unsigned` is `ZERO == ZERO`, always true, so the second disjunct of the
first error check reduces to the sign test. -/
def tryFromF64 (BITS : Nat) (rep : Nat) : Option (Except ToUintError Nat) :=
  if f64_lt_half rep then some (.ok 0)
  else
    let aAbs := rep &&& (2 ^ 64 - 1 - 2 ^ 63)
    let signNegative : Bool := rep &&& 2 ^ 63 != 0
    let exponent0 := aAbs >>> 52
    let significand := (aAbs &&& (2 ^ 52 - 1)) ||| 2 ^ 52
    if exponent0 < 1023 ∨ signNegative = true then
      some (.error (.valueNegative BITS 0))
    else
      let exponent := exponent0 - 1023
      if exponent ≥ BITS then
        if signNegative = false then some (.error (.valueTooLarge BITS (MAX BITS)))
        else some (.error (.valueNegative BITS 0))
      else if exponent < 52 then
        let shift := 52 - exponent
        let r0 := significand >>> shift
        let remainder := significand &&& (2 ^ shift - 1)
        let halfway := 2 ^ (shift - 1)
        let r := if remainder > halfway ∨ (remainder = halfway ∧ r0 &&& 1 = 1)
                 then (r0 + 1) % 2 ^ 64 else r0
        match tryFromU64 BITS r with
        | .ok n => some (.ok n)
        | .error _ => none
      else
        match tryFromU64 BITS significand with
        | .ok n => some (.ok ((n <<< (exponent - 52)) % 2 ^ BITS))
        | .error _ => none

/-- Shallow embedding of `Uint::to_f64_bits` (src/from.rs lines 758-832). Uint
shifts wrap to the width; u64 arithmetic that can wrap is reduced modulo
`2 ^ 64`; `!a` is the u64 complement `2 ^ 64 - 1 - a`. -/
def to_f64_bits (BITS v : Nat) : Nat :=
  if v = 0 then 0
  else
    let n := leading_zeros BITS v
    let y := (v <<< n) % 2 ^ BITS
    let e := 1021 + BITS - n
    if e ≥ 0x7FF then 0x7FF0000000000000
    else
      let a :=
        if BITS ≥ 53 then limb (y >>> (BITS - 53)) 0
        else (limb y 0 <<< (53 - BITS)) % 2 ^ 64
      let b :=
        if BITS > 53 then
          let r := BITS - 53
          let tailMask := ((1 <<< r) % 2 ^ BITS + (2 ^ BITS - 1)) % 2 ^ BITS
          let tail := y &&& tailMask
          let g := if r > 0 then limb (tail >>> (r - 1)) 0 &&& 1 else 0
          let sticky : Bool :=
            if r > 1 then
              let lowMask := ((1 <<< (r - 1)) % 2 ^ BITS + (2 ^ BITS - 1)) % 2 ^ BITS
              tail &&& lowMask != 0
            else false
          ((g <<< 63) ||| (if sticky then 1 else 0)) % 2 ^ 64
        else 0
      let m := a + (((b + (2 ^ 64 - ((b >>> 63) &&& (2 ^ 64 - 1 - a)))) % 2 ^ 64) >>> 63)
      (e <<< 52) + m

/-- Exact IEEE-754 binary64 bit pattern of a nonzero integer whose bit length is
at most 53: sign 0, biased exponent `1023 + (bitlen - 1)`, and the value scaled so
its leading 1 becomes the hidden bit. Stated from the spec's words for the float
round-trip property, as the reference against which `to_f64_bits` is compared. -/
def exactF64Pattern (v : Nat) : Nat :=
  (1022 + Nat.size v) * 2 ^ 52 + (v * 2 ^ (53 - Nat.size v) - 2 ^ 52)

/-! ### Helper lemmas about the modelled limb primitives -/

theorem lor_eq_zero_iff (a b : Nat) : a ||| b = 0 ↔ a = 0 ∧ b = 0 := by
  constructor
  · intro h
    have key : ∀ i, a.testBit i = false ∧ b.testBit i = false := by
      intro i
      have hc := congrArg (fun t => Nat.testBit t i) h
      simpa using hc
    exact ⟨Nat.eq_of_testBit_eq fun i => by simp [(key i).1],
           Nat.eq_of_testBit_eq fun i => by simp [(key i).2]⟩
  · rintro ⟨rfl, rfl⟩
    simp

theorem foldl_or_eq_zero_iff (l : List Nat) : ∀ acc : Nat,
    l.foldl (fun a b => a ||| b) acc = 0 ↔ acc = 0 ∧ ∀ x ∈ l, x = 0 := by
  induction l with
  | nil => intro acc; simp
  | cons x xs ih =>
      intro acc
      rw [List.foldl_cons, ih, lor_eq_zero_iff, List.forall_mem_cons]
      tauto

theorem limb_eq_zero_of_lt (v i : Nat) (h : v < 2 ^ (64 * i)) : limb v i = 0 := by
  unfold limb
  rw [Nat.div_eq_of_lt h]
  simp

theorem lt_of_limbs_zero (v n : Nat) : ∀ k, v < 2 ^ (64 * (n + k)) →
    (∀ i, n ≤ i → i < n + k → limb v i = 0) → v < 2 ^ (64 * n) := by
  intro k
  induction k with
  | zero => intro hv _; simpa using hv
  | succ k ih =>
      intro hv h
      apply ih
      · have hl := h (n + k) (by omega) (by omega)
        have hd : v / 2 ^ (64 * (n + k)) < 2 ^ 64 := by
          rw [Nat.div_lt_iff_lt_mul (Nat.pos_pow_of_pos _ (by norm_num))]
          calc v < 2 ^ (64 * (n + (k + 1))) := hv
          _ = 2 ^ 64 * 2 ^ (64 * (n + k)) := by
              rw [← Nat.pow_add]; congr 1; omega
        have hz : v / 2 ^ (64 * (n + k)) = 0 := by
          unfold limb at hl
          rwa [Nat.mod_eq_of_lt hd] at hl
        have := (Nat.div_eq_zero_iff (Nat.pos_pow_of_pos _ (by norm_num))).mp hz
        exact this
      · intro i h1 h2
        exact h i h1 (by omega)

theorem bits_le_limbs (b : Nat) : b ≤ 64 * nlimbs b := by
  unfold nlimbs; omega

theorem limbs_gt_eq (B v n : Nat) (hv : v < 2 ^ B) :
    limbs_gt B v n = decide (2 ^ (64 * n) ≤ v) := by
  have hvL : v < 2 ^ (64 * nlimbs B) :=
    lt_of_lt_of_le hv (Nat.pow_le_pow_right (by norm_num) (bits_le_limbs B))
  unfold limbs_gt
  by_cases h1 : nlimbs B < n
  · rw [if_pos h1]
    have hvn : v < 2 ^ (64 * n) :=
      lt_of_lt_of_le hvL (Nat.pow_le_pow_right (by norm_num) (by omega))
    rw [decide_eq_false (Nat.not_le.mpr hvn)]
  · rw [if_neg h1]
    by_cases h2 : B ≤ 512
    · rw [if_pos h2]
      have hdrop : (limbsOf B v).drop n = (List.range' n (nlimbs B - n)).map (limb v) := by
        unfold limbsOf
        rw [List.range_eq_range', ← List.map_drop]
        congr 1
        have hsplit : List.range' 0 (nlimbs B) = List.range' 0 n ++ List.range' n (nlimbs B - n) := by
          have happ := List.range'_append 0 n (nlimbs B - n) 1
          simp only [Nat.one_mul, Nat.zero_add] at happ
          have hcount : nlimbs B - n + n = nlimbs B := by omega
          rw [hcount] at happ
          exact happ.symm
        rw [hsplit, List.drop_left' (by simp)]
      rw [hdrop]
      rcases le_or_lt (2 ^ (64 * n)) v with hge | hlt
      · have hne : ¬ ((List.range' n (nlimbs B - n)).map (limb v)).foldl (fun a b => a ||| b) 0 = 0 := by
          rw [foldl_or_eq_zero_iff]
          rintro ⟨-, hall⟩
          have : v < 2 ^ (64 * n) := by
            apply lt_of_limbs_zero v n (nlimbs B - n)
            · have : 64 * (n + (nlimbs B - n)) = 64 * nlimbs B ∨ n + (nlimbs B - n) = n := by omega
              rcases this with h | h
              · rw [h]; exact hvL
              · rw [h]
                exact lt_of_lt_of_le hvL (Nat.pow_le_pow_right (by norm_num) (by omega))
            · intro i hi1 hi2
              exact hall (limb v i) (List.mem_map_of_mem _ (by simp [List.mem_range'_1]; omega))
          omega
        rw [bne_iff_ne.mpr hne, decide_eq_true hge]
      · have hz : ((List.range' n (nlimbs B - n)).map (limb v)).foldl (fun a b => a ||| b) 0 = 0 := by
          rw [foldl_or_eq_zero_iff]
          refine ⟨rfl, ?_⟩
          intro x hx
          rcases List.mem_map.mp hx with ⟨i, hi, rfl⟩
          have hi2 : n ≤ i := by
            rw [List.mem_range'_1] at hi
            omega
          apply limb_eq_zero_of_lt
          exact lt_of_lt_of_le hlt (Nat.pow_le_pow_right (by norm_num) (by omega))
        rw [hz, decide_eq_false (Nat.not_le.mpr hlt)]
        rfl
    · rw [if_neg h2]
      have hiff : 64 * n < bit_len v ↔ 2 ^ (64 * n) ≤ v := by
        unfold bit_len
        exact Nat.lt_size
      simp only [gt_iff_lt]
      rcases le_or_lt (2 ^ (64 * n)) v with hge | hlt
      · rw [decide_eq_true (hiff.mpr hge), decide_eq_true hge]
      · rw [decide_eq_false (by rw [hiff]; omega), decide_eq_false (Nat.not_le.mpr hlt)]

theorem gt_u64_max_eq (B v : Nat) (hv : v < 2 ^ B) :
    gt_u64_max B v = decide (2 ^ 64 ≤ v) := by
  unfold gt_u64_max
  rw [limbs_gt_eq B v 1 hv]

theorem from_limbs_replicate_zero (k : Nat) : from_limbs (List.replicate k 0) = 0 := by
  induction k with
  | zero => rfl
  | succ k ih => simp [List.replicate_succ, from_limbs, ih]

theorem from_limbs_cons_zeros (x k : Nat) : from_limbs (x :: List.replicate k 0) = x := by
  simp [from_limbs, from_limbs_replicate_zero]

theorem MASK_eq (b : Nat) (h1 : 1 ≤ b) (h2 : b ≤ 64) : MASK b = 2 ^ b - 1 := by
  unfold MASK
  rw [if_neg (by omega)]
  by_cases hb : b % 64 = 0
  · have hb64 : b = 64 := by omega
    subst hb64
    simp
  · rw [if_neg hb]
    have : b % 64 = b := Nat.mod_eq_of_lt (by omega)
    rw [this]

theorem tryFromU64_eq (B value : Nat) (hv : value < 2 ^ 64) :
    tryFromU64 B value =
      if value ≤ MAX B then .ok value
      else .error (.valueTooLarge B (value % 2 ^ B)) := by
  unfold tryFromU64
  rcases Nat.eq_zero_or_pos B with hB | hB
  · subst hB
    have hn : nlimbs 0 = 0 := rfl
    have hm : MASK 0 = 0 := rfl
    have hx : MAX 0 = 0 := rfl
    by_cases h0 : value = 0
    · subst h0
      simp [hn, hm, hx]
    · rw [if_pos ⟨by rw [hn]; omega, by rw [hm]; omega⟩, if_neg (by rw [hx]; omega)]
      rw [hn]
      simp [from_limbs, Nat.mod_one]
  · rcases le_or_lt B 64 with hB2 | hB2
    · have hn : nlimbs B = 1 := by unfold nlimbs; omega
      have hm : MASK B = 2 ^ B - 1 := MASK_eq B hB hB2
      have hx : MAX B = 2 ^ B - 1 := rfl
      by_cases hv2 : value ≤ 2 ^ B - 1
      · rw [if_neg (by rw [hn, hm]; omega), if_neg (by rw [hn]; omega), if_pos (by rw [hx]; omega)]
        rw [hn]
        simp [from_limbs]
      · rw [if_pos ⟨by rw [hn], by rw [hm]; omega⟩, if_neg (by rw [hx]; omega)]
        rw [hn, hm]
        simp [List.replicate, from_limbs, Nat.and_pow_two_sub_one_eq_mod]
    · have hn : 2 ≤ nlimbs B := by unfold nlimbs; omega
      have hmax : value ≤ MAX B := by
        have h64 : 2 ^ 64 ≤ 2 ^ B := Nat.pow_le_pow_right (by norm_num) (by omega)
        unfold MAX
        omega
      rw [if_neg (by omega), if_neg (by omega), if_pos hmax]
      simp [from_limbs_cons_zeros]

theorem limb_zero (v : Nat) (h : v < 2 ^ 64) : limb v 0 = v := by
  unfold limb
  rw [Nat.mul_zero, Nat.pow_zero, Nat.div_one]
  exact Nat.mod_eq_of_lt h

theorem emod_toNat_lt (x : Int) (sw : Nat) (hsw : sw ≤ 64) :
    (x % (2 ^ sw : Int)).toNat < 2 ^ 64 := by
  have hpos : (0:Int) < 2 ^ sw := by positivity
  have h1 : x % 2 ^ sw < 2 ^ sw := Int.emod_lt_of_pos x hpos
  have h2 : (0:Int) ≤ x % 2 ^ sw := Int.emod_nonneg x (by positivity)
  have h3 : ((2:Int) ^ sw) ≤ 2 ^ 64 := pow_le_pow_right₀ (by norm_num) hsw
  have h4 : ((2:Int) ^ 64) = ((2 ^ 64 : Nat) : Int) := by norm_cast
  omega

theorem tryFromSigned_neg (sw B : Nat) (x : Int) (hsw : sw ≤ 64) (hx : x < 0) :
    tryFromSigned sw B x =
      .error (.valueNegative B (((x % (2 ^ sw : Int)).toNat) % 2 ^ B)) := by
  unfold tryFromSigned
  rw [if_pos hx, tryFromU64_eq B _ (emod_toNat_lt x sw hsw)]
  by_cases h : (x % (2 ^ sw : Int)).toNat ≤ MAX B
  · rw [if_pos h]
    unfold MAX at h
    have h2 : 0 < 2 ^ B := Nat.pos_pow_of_pos _ (by norm_num)
    have hm : (x % (2 ^ sw : Int)).toNat % 2 ^ B = (x % (2 ^ sw : Int)).toNat :=
      Nat.mod_eq_of_lt (by omega)
    rw [hm]
  · rw [if_neg h]

/-- C5 (confirmed): round-trip — every native unsigned integer value (width
`dbits ≤ 64`) that is at most the destination `MAX` converts in strictly with
success, and strict conversion back to the native type succeeds and returns the
original value. -/
theorem C5_round_trip (B dbits x : Nat) (hd : dbits ≤ 64) (hx : x < 2 ^ dbits)
    (hmax : x ≤ MAX B) :
    tryFromU64 B x = .ok x ∧ uint_to_int B dbits x = .ok x := by
  have hx64 : x < 2 ^ 64 := lt_of_lt_of_le hx (Nat.pow_le_pow_right (by norm_num) hd)
  have hp : 0 < 2 ^ dbits := Nat.pos_pow_of_pos _ (by norm_num)
  constructor
  · rw [tryFromU64_eq B x hx64, if_pos hmax]
  · unfold uint_to_int
    by_cases hB : B = 0
    · subst hB
      have hx0 : x = 0 := by
        have : MAX 0 = 0 := rfl
        omega
      subst hx0
      rfl
    · have hB1 : 0 < B := Nat.pos_of_ne_zero hB
      have hxB : x < 2 ^ B := by
        have h1 : 0 < 2 ^ B := Nat.pos_pow_of_pos _ (by norm_num)
        unfold MAX at hmax
        omega
      have hg : gt_u64_max B x = false := by
        rw [gt_u64_max_eq B x hxB]
        exact decide_eq_false (Nat.not_le.mpr hx64)
      have hlimb : limb x 0 = x := limb_zero x hx64
      rw [if_neg hB, if_neg (by rw [hg, hlimb]; simp only [Bool.false_eq_true, false_or]; omega)]
      rw [hlimb, Nat.mod_eq_of_lt (by omega)]

/-- Witness for C5 at `BITS = 12, dbits = 16, x = 300`. -/
theorem C5_round_trip_witness :
    tryFromU64 12 300 = .ok 300 ∧ uint_to_int 12 16 300 = .ok 300 :=
  C5_round_trip 12 16 300 (by decide) (by decide) (by decide)

/-- C6 (confirmed): the saturating policy — the converted value on success,
`MAX` on `ValueTooLarge`, `ZERO` on `ValueNegative` or `NotANumber`; hence every
too-large u64 value saturates to `MAX` and every negative signed native integer
saturates to `ZERO`. -/
theorem C6_saturating (B b n m v sw : Nat) (x : Int) :
    saturating_from B (.ok n) = n ∧
    saturating_from B (.error (.valueTooLarge b m)) = MAX B ∧
    saturating_from B (.error (.valueNegative b m)) = 0 ∧
    saturating_from B (.error (.notANumber b)) = 0 ∧
    (v < 2 ^ 64 → MAX B < v → saturating_from_u64 B v = MAX B) ∧
    (sw ≤ 64 → x < 0 → saturating_from_signed sw B x = 0) := by
  refine ⟨rfl, rfl, rfl, rfl, ?_, ?_⟩
  · intro h1 h2
    unfold saturating_from_u64
    rw [tryFromU64_eq B v h1, if_neg (by omega)]
    rfl
  · intro h1 h2
    unfold saturating_from_signed
    rw [tryFromSigned_neg sw B x h1 h2]
    rfl

/-- Witness for C6 at `BITS = 8` with the too-large source `300` and the negative
i16 source `-10`. -/
theorem C6_saturating_witness :
    saturating_from_u64 8 300 = MAX 8 ∧ saturating_from_signed 16 8 (-10) = 0 :=
  ⟨(C6_saturating 8 0 0 0 300 16 (-10)).2.2.2.2.1 (by decide) (by decide),
   (C6_saturating 8 0 0 0 300 16 (-10)).2.2.2.2.2 (by decide) (by decide)⟩

/-- C7 (confirmed): the u128 rule — a value whose high half is zero follows the
u64 rule; a value with nonzero high half into a destination with fewer than two
limbs fails with `ValueTooLarge` carrying the u64-rule result of the low half;
and the concrete cases `u64::MAX + 1` into 64 bits (error carrying ZERO) and into
128 bits (success, limb1 = 1, limb0 = 0). -/
theorem C7_u128_rule (B v : Nat) (hv : v < 2 ^ 128) :
    (v ≤ 2 ^ 64 - 1 → tryFromU128 B v = tryFromU64 B v) ∧
    (2 ^ 64 - 1 < v → nlimbs B < 2 →
      ∃ n, tryFromU128 B v = .error (.valueTooLarge B n) ∧
        (tryFromU64 B (v % 2 ^ 64) = .ok n ∨
         tryFromU64 B (v % 2 ^ 64) = .error (.valueTooLarge B n))) ∧
    tryFromU128 64 (2 ^ 64) = .error (.valueTooLarge 64 0) ∧
    tryFromU128 128 (2 ^ 64) = .ok (2 ^ 64) ∧
    limb (2 ^ 64) 1 = 1 ∧ limb (2 ^ 64) 0 = 0 := by
  refine ⟨?_, ?_, by decide, by decide, by decide, by decide⟩
  · intro h
    unfold tryFromU128
    rw [if_pos h]
  · intro h1 h2
    have hm64 : v % 2 ^ 64 < 2 ^ 64 := Nat.mod_lt _ (by positivity)
    unfold tryFromU128
    rw [if_neg (by omega), if_pos h2]
    by_cases hlow : v % 2 ^ 64 ≤ MAX B
    · have hok : tryFromU64 B (v % 2 ^ 64) = .ok (v % 2 ^ 64) := by
        rw [tryFromU64_eq _ _ hm64, if_pos hlow]
      exact ⟨v % 2 ^ 64, by rw [hok], Or.inl hok⟩
    · have herr : tryFromU64 B (v % 2 ^ 64) =
          .error (.valueTooLarge B (v % 2 ^ 64 % 2 ^ B)) := by
        rw [tryFromU64_eq _ _ hm64, if_neg hlow]
      exact ⟨v % 2 ^ 64 % 2 ^ B, by rw [herr], Or.inr herr⟩

/-- Witness for C7 at `BITS = 32, v = 2^64 + 5` (high half nonzero, one limb). -/
theorem C7_u128_rule_witness :
    ∃ n, tryFromU128 32 (2 ^ 64 + 5) = .error (.valueTooLarge 32 n) ∧
      (tryFromU64 32 ((2 ^ 64 + 5) % 2 ^ 64) = .ok n ∨
       tryFromU64 32 ((2 ^ 64 + 5) % 2 ^ 64) = .error (.valueTooLarge 32 n)) :=
  (C7_u128_rule 32 (2 ^ 64 + 5) (by norm_num)).2.1 (by norm_num) (by decide)

/-- C9 (confirmed): the bit-exact encoder is total — the zero value encodes to the
bit pattern 0, and every nonzero value whose derived biased exponent
`e = 1021 + BITS - leading_zeros` reaches `0x7FF` encodes to the positive
infinity pattern `0x7FF0000000000000`. -/
theorem C9_encoder_totality (B v : Nat) :
    to_f64_bits B 0 = 0 ∧
    (v ≠ 0 → 1021 + B - leading_zeros B v ≥ 0x7FF → to_f64_bits B v = 0x7FF0000000000000) := by
  constructor
  · simp [to_f64_bits]
  · intro h0 he
    simp only [to_f64_bits, if_neg h0, if_pos he]

theorem leading_zeros_pow (B k : Nat) : leading_zeros B (2 ^ k) = B - (k + 1) := by
  unfold leading_zeros bit_len
  rw [Nat.size_pow]

/-- Witness for C9 at `BITS = 1100, v = 2^1099`. -/
theorem C9_encoder_totality_witness :
    (2 : Nat) ^ 1099 ≠ 0 ∧
    1021 + 1100 - leading_zeros 1100 (2 ^ 1099) ≥ 0x7FF ∧
    to_f64_bits 1100 (2 ^ 1099) = 0x7FF0000000000000 := by
  have h0 : (2 : Nat) ^ 1099 ≠ 0 := by positivity
  have he : 1021 + 1100 - leading_zeros 1100 (2 ^ 1099) ≥ 0x7FF := by
    rw [leading_zeros_pow 1100 1099]
    norm_num
  exact ⟨h0, he, (C9_encoder_totality 1100 (2 ^ 1099)).2 h0 he⟩

/-! ### Helper lemmas for the f64 bit-pattern decomposition -/

theorem and_sign_bit (x : Nat) (h : x < 2 ^ 64) :
    x &&& 2 ^ 63 = if 2 ^ 63 ≤ x then 2 ^ 63 else 0 := by
  rw [Nat.and_two_pow, Nat.testBit_to_div_mod]
  rcases le_or_lt (2 ^ 63) x with hge | hlt
  · have h1 : x / 2 ^ 63 = 1 := by
      apply Nat.div_eq_of_lt_le (by simpa using hge)
      calc x < 2 ^ 64 := h
      _ = (1 + 1) * 2 ^ 63 := by norm_num
    rw [if_pos hge, h1]
    norm_num
  · have h1 : x / 2 ^ 63 = 0 := Nat.div_eq_of_lt hlt
    rw [if_neg (by omega), h1]
    norm_num

theorem and_low63 (x : Nat) : x &&& (2 ^ 64 - 1 - 2 ^ 63) = x % 2 ^ 63 := by
  have h : (2:Nat) ^ 64 - 1 - 2 ^ 63 = 2 ^ 63 - 1 := by norm_num
  rw [h, Nat.and_pow_two_sub_one_eq_mod]

theorem or_hidden (x : Nat) (h : x < 2 ^ 52) : x ||| 2 ^ 52 = x + 2 ^ 52 := by
  have hmul := Nat.mul_add_lt_is_or h 1
  rw [Nat.mul_one] at hmul
  rw [Nat.or_comm, ← hmul, Nat.add_comm]

theorem f64_lt_half_false_pos (x : Nat) (h1 : x < 2 ^ 63) (h2 : 0x3FE0000000000000 ≤ x) :
    f64_lt_half x = false := by
  unfold f64_lt_half
  have hc : x &&& 2 ^ 63 = 0 := by
    rw [and_sign_bit x (by omega), if_neg (by omega)]
  rw [if_pos hc, Nat.and_pow_two_sub_one_eq_mod, Nat.mod_eq_of_lt h1]
  exact decide_eq_false (by omega)

theorem f64_lt_half_true_lt (x : Nat) (h1 : x < 0x3FE0000000000000) :
    f64_lt_half x = true := by
  unfold f64_lt_half
  have hc : x &&& 2 ^ 63 = 0 := by
    rw [and_sign_bit x (by omega), if_neg (by omega)]
  rw [if_pos hc, Nat.and_pow_two_sub_one_eq_mod, Nat.mod_eq_of_lt (by omega)]
  exact decide_eq_true h1

theorem f64_lt_half_neg (x : Nat) (h64 : x < 2 ^ 64) (h1 : 2 ^ 63 ≤ x) :
    f64_lt_half x = decide (x % 2 ^ 63 ≤ 0x7FF0000000000000) := by
  unfold f64_lt_half
  have hc : x &&& 2 ^ 63 = 2 ^ 63 := by
    rw [and_sign_bit x h64, if_pos h1]
  rw [if_neg (by rw [hc]; norm_num), Nat.and_pow_two_sub_one_eq_mod]

theorem signNegative_false (x : Nat) (h1 : x < 2 ^ 63) :
    (x &&& 2 ^ 63 != 0) = false := by
  have hc : x &&& 2 ^ 63 = 0 := by
    rw [and_sign_bit x (by omega), if_neg (by omega)]
  rw [hc]
  rfl

theorem signNegative_true (x : Nat) (h64 : x < 2 ^ 64) (h1 : 2 ^ 63 ≤ x) :
    (x &&& 2 ^ 63 != 0) = true := by
  have hc : x &&& 2 ^ 63 = 2 ^ 63 := by
    rw [and_sign_bit x h64, if_pos h1]
  rw [hc]
  rfl

theorem rep_div_field (E m : Nat) (hm : m < 2 ^ 52) : (E * 2 ^ 52 + m) / 2 ^ 52 = E := by
  have h : E * 2 ^ 52 + m = 2 ^ 52 * E + m := by ring
  rw [h, Nat.mul_add_div (by positivity), Nat.div_eq_of_lt hm, Nat.add_zero]

theorem rep_mod_field (E m : Nat) (hm : m < 2 ^ 52) : (E * 2 ^ 52 + m) % 2 ^ 52 = m := by
  have h : E * 2 ^ 52 + m = 2 ^ 52 * E + m := by ring
  rw [h, Nat.mul_add_mod, Nat.mod_eq_of_lt hm]

/-- The round-to-nearest-ties-to-even right shift performed by the f64
conversion's rounding branch (src/from.rs lines 577-586), as a named function. -/
def round_shift (s shift : Nat) : Nat :=
  if s &&& (2 ^ shift - 1) > 2 ^ (shift - 1) ∨
     (s &&& (2 ^ shift - 1) = 2 ^ (shift - 1) ∧ (s >>> shift) &&& 1 = 1)
  then (s >>> shift + 1) % 2 ^ 64 else s >>> shift

/-- Normal form of the f64 conversion on a positive normal (or infinite/NaN)
bit pattern `E * 2^52 + m` with biased exponent field `E ≥ 1023`. -/
theorem tryFromF64_pos (B E m : Nat) (hE1 : 1023 ≤ E) (hE2 : E ≤ 2047) (hm : m < 2 ^ 52) :
    tryFromF64 B (E * 2 ^ 52 + m) =
      if E - 1023 ≥ B then some (.error (.valueTooLarge B (MAX B)))
      else if E - 1023 < 52 then
        match tryFromU64 B (round_shift (2 ^ 52 + m) (52 - (E - 1023))) with
        | .ok n => some (.ok n)
        | .error _ => none
      else
        match tryFromU64 B (2 ^ 52 + m) with
        | .ok n => some (.ok ((n <<< (E - 1023 - 52)) % 2 ^ B))
        | .error _ => none := by
  have hrep63 : E * 2 ^ 52 + m < 2 ^ 63 := by omega
  have hlt : f64_lt_half (E * 2 ^ 52 + m) = false :=
    f64_lt_half_false_pos _ hrep63 (by omega)
  have haAbs : (E * 2 ^ 52 + m) &&& (2 ^ 64 - 1 - 2 ^ 63) = E * 2 ^ 52 + m := by
    rw [and_low63, Nat.mod_eq_of_lt hrep63]
  have hsign : ((E * 2 ^ 52 + m) &&& 2 ^ 63 != 0) = false := signNegative_false _ hrep63
  have hexp : (E * 2 ^ 52 + m) >>> 52 = E := by
    rw [Nat.shiftRight_eq_div_pow]
    exact rep_div_field E m hm
  have hmant : (E * 2 ^ 52 + m) &&& (2 ^ 52 - 1) = m := by
    rw [Nat.and_pow_two_sub_one_eq_mod]
    exact rep_mod_field E m hm
  have hsig : m ||| 2 ^ 52 = 2 ^ 52 + m := by
    rw [or_hidden m hm, Nat.add_comm]
  simp only [tryFromF64, round_shift, hlt, Bool.false_eq_true, if_false, haAbs, hsign, hexp,
    hmant, hsig]
  rw [if_neg (by simp [Nat.not_lt.mpr hE1])]
  by_cases hB : E - 1023 ≥ B
  · rw [if_pos hB, if_pos hB, if_pos trivial]
  · rw [if_neg hB, if_neg hB]

/-- C10 (confirmed): no float conversion constructs `NotANumber` — whenever the
conversion returns, the result is `Ok`, `ValueTooLarge` or `ValueNegative`, never
`NotANumber`, so the `NotANumber` arms of `saturating_from` and `wrapping_from`
are unreachable from float input; a NaN with positive sign bit (pattern strictly
between `0x7FF0000000000000` and `2^63`) yields `Err(ValueTooLarge(BITS, MAX))`
whenever `BITS ≤ 1024`. -/
theorem C10_no_nan_error (B rep : Nat) (h64 : rep < 2 ^ 64) :
    (∀ b, tryFromF64 B rep ≠ some (.error (.notANumber b))) ∧
    (0x7FF0000000000000 < rep → rep < 2 ^ 63 → B ≤ 1024 →
      tryFromF64 B rep = some (.error (.valueTooLarge B (MAX B)))) := by
  constructor
  · intro b
    simp only [tryFromF64]
    split
    · simp
    · split
      · simp
      · split
        · split
          · simp
          · simp
        · split
          · split
            · simp
            · simp
          · split
            · simp
            · simp
  · intro h1 h2 h3
    have hEdef : rep = 2047 * 2 ^ 52 + rep % 2 ^ 52 := by omega
    have hm : rep % 2 ^ 52 < 2 ^ 52 := Nat.mod_lt _ (by positivity)
    rw [hEdef, tryFromF64_pos B 2047 (rep % 2 ^ 52) (by norm_num) (by norm_num) hm,
        if_pos (by omega)]

/-- C2 (amended): every bit pattern with the sign bit set other than a NaN — that
is, every negative source value including -3.0, -0.0 and negative infinity — is
pre-empted by the `value < 0.5` check and converts to `Ok(ZERO)`, not to
`Err(ValueNegative)`; the conversion returns `Err(ValueNegative(BITS, ZERO))`
exactly for the positive values in the interval [0.5, 1) and for NaN patterns
with the sign bit set. -/
theorem C2_value_negative (B rep : Nat) (h64 : rep < 2 ^ 64) :
    (2 ^ 63 ≤ rep → rep % 2 ^ 63 ≤ 0x7FF0000000000000 → tryFromF64 B rep = some (.ok 0)) ∧
    (tryFromF64 B rep = some (.error (.valueNegative B 0)) ↔
      (0x3FE0000000000000 ≤ rep ∧ rep < 0x3FF0000000000000) ∨ 0xFFF0000000000000 < rep) := by
  constructor
  · intro h1 h2
    have hlt := f64_lt_half_neg rep h64 h1
    rw [decide_eq_true h2] at hlt
    simp [tryFromF64, hlt]
  · constructor
    · intro hres
      by_contra hnot
      push_neg at hnot
      obtain ⟨hn1, hn2⟩ := hnot
      rcases le_or_lt (2 ^ 63) rep with hs | hs
      · have hlim : rep % 2 ^ 63 ≤ 0x7FF0000000000000 := by omega
        have hlt := f64_lt_half_neg rep h64 hs
        rw [decide_eq_true hlim] at hlt
        simp [tryFromF64, hlt] at hres
      · rcases lt_or_le rep 0x3FE0000000000000 with hlo | hhi
        · have hlt := f64_lt_half_true_lt rep hlo
          simp [tryFromF64, hlt] at hres
        · have hge : 0x3FF0000000000000 ≤ rep := hn1 hhi
          have hEdef : rep = rep / 2 ^ 52 * 2 ^ 52 + rep % 2 ^ 52 := by omega
          have hE1 : 1023 ≤ rep / 2 ^ 52 := by
            rw [Nat.le_div_iff_mul_le (by positivity : (0:Nat) < 2 ^ 52)]
            omega
          have hE2 : rep / 2 ^ 52 ≤ 2047 := by
            have : rep / 2 ^ 52 < 2048 := by
              rw [Nat.div_lt_iff_lt_mul (by positivity)]
              omega
            omega
          have hm : rep % 2 ^ 52 < 2 ^ 52 := Nat.mod_lt _ (by positivity)
          rw [hEdef, tryFromF64_pos B (rep / 2 ^ 52) (rep % 2 ^ 52) hE1 hE2 hm] at hres
          by_cases hB : rep / 2 ^ 52 - 1023 ≥ B
          · rw [if_pos hB] at hres
            simp at hres
          · rw [if_neg hB] at hres
            by_cases h52 : rep / 2 ^ 52 - 1023 < 52
            · rw [if_pos h52] at hres
              split at hres
              · simp at hres
              · simp at hres
            · rw [if_neg h52] at hres
              split at hres
              · simp at hres
              · simp at hres
    · intro hrhs
      rcases hrhs with ⟨h1, h2⟩ | h
      · have hs : rep < 2 ^ 63 := by omega
        have hlt := f64_lt_half_false_pos rep hs h1
        have haAbs : rep &&& (2 ^ 64 - 1 - 2 ^ 63) = rep := by
          rw [and_low63, Nat.mod_eq_of_lt hs]
        have hexp : rep >>> 52 < 1023 := by
          rw [Nat.shiftRight_eq_div_pow, Nat.div_lt_iff_lt_mul (by positivity)]
          omega
        simp only [tryFromF64, hlt, Bool.false_eq_true, if_false, haAbs]
        rw [if_pos (Or.inl hexp)]
      · have hs : 2 ^ 63 ≤ rep := by omega
        have hlt := f64_lt_half_neg rep h64 hs
        rw [decide_eq_false (by omega)] at hlt
        have hsig := signNegative_true rep h64 hs
        simp only [tryFromF64, hlt, Bool.false_eq_true, if_false, hsig]
        rw [if_pos (Or.inr trivial)]

/-- C2 counterexample: the fallible float conversion at the source value -3.0
(bit pattern 0xC008000000000000, magnitude well above 0.5) into an 8-bit width
returns Ok(ZERO) via the `value < 0.5` pre-emption, not
Err(ValueNegative(8, ZERO)) as the claim states. -/
theorem C2_counterexample :
    tryFromF64 8 0xC008000000000000 = some (.ok 0) ∧
    ¬ tryFromF64 8 0xC008000000000000 = some (.error (.valueNegative 8 0)) := by
  constructor
  · decide
  · decide

/-- Witness for C2 (amended) at the bit patterns of -3.0 (sign-negative, not a
NaN) and 0.75 (in the interval [0.5, 1)), width 8. -/
theorem C2_value_negative_witness :
    tryFromF64 8 0xC008000000000000 = some (.ok 0) ∧
    tryFromF64 8 0x3FE8000000000000 = some (.error (.valueNegative 8 0)) :=
  ⟨(C2_value_negative 8 0xC008000000000000 (by norm_num)).1 (by norm_num) (by norm_num),
   (C2_value_negative 8 0x3FE8000000000000 (by norm_num)).2.mpr (Or.inl (by norm_num))⟩

theorem round_shift_eq (s sh : Nat) (h1 : 1 ≤ sh) (hs : s < 2 ^ 64) :
    round_shift s sh =
      if s % 2 ^ sh > 2 ^ (sh - 1) ∨ (s % 2 ^ sh = 2 ^ (sh - 1) ∧ s / 2 ^ sh % 2 = 1)
      then s / 2 ^ sh + 1 else s / 2 ^ sh := by
  unfold round_shift
  rw [Nat.and_pow_two_sub_one_eq_mod, Nat.shiftRight_eq_div_pow, Nat.and_one_is_mod]
  have hq : s / 2 ^ sh + 1 < 2 ^ 64 := by
    have h2 : (2:Nat) ^ 1 ≤ 2 ^ sh := Nat.pow_le_pow_right (by norm_num) h1
    have h3 : s / 2 ^ sh ≤ s / 2 ^ 1 := Nat.div_le_div_left h2 (by norm_num)
    have h4 : s / 2 ^ 1 = s / 2 := by norm_num
    omega
  rw [Nat.mod_eq_of_lt hq]

/-- The rounded quotient is the nearest integer to `s / 2^sh`, ties to even:
its distance to the exact rational, scaled by `2^sh`, is at most half, with the
tie resolved to an even result; it is the floor or the floor plus one, and the
latter only when the remainder reaches the halfway point. -/
theorem round_shift_rne (s sh : Nat) (h1 : 1 ≤ sh) (hs : s < 2 ^ 64) :
    (((round_shift s sh : Int) * 2 ^ sh - s).natAbs * 2 ≤ 2 ^ sh ∧
      (((round_shift s sh : Int) * 2 ^ sh - s).natAbs * 2 = 2 ^ sh →
        round_shift s sh % 2 = 0)) ∧
    s / 2 ^ sh ≤ round_shift s sh ∧ round_shift s sh ≤ s / 2 ^ sh + 1 ∧
    (round_shift s sh = s / 2 ^ sh + 1 → 2 ^ (sh - 1) ≤ s % 2 ^ sh) := by
  rw [round_shift_eq s sh h1 hs]
  have hrem : s % 2 ^ sh < 2 ^ sh := Nat.mod_lt _ (by positivity)
  have hsplit : 2 ^ sh * (s / 2 ^ sh) + s % 2 ^ sh = s := Nat.div_add_mod s (2 ^ sh)
  have hhalf : 2 ^ (sh - 1) * 2 = 2 ^ sh := by
    rw [mul_comm, ← pow_succ']
    congr 1
    omega
  have hc2 : ((2:Int) ^ sh) * ((s / 2 ^ sh : Nat) : Int) + ((s % 2 ^ sh : Nat) : Int)
      = (s : Int) := by
    exact_mod_cast congrArg (Nat.cast : Nat → Int) hsplit
  by_cases hc : s % 2 ^ sh > 2 ^ (sh - 1) ∨ (s % 2 ^ sh = 2 ^ (sh - 1) ∧ s / 2 ^ sh % 2 = 1)
  · rw [if_pos hc]
    have hdiff : ((s / 2 ^ sh + 1 : Nat) : Int) * 2 ^ sh - (s : Int)
        = ((2 ^ sh - s % 2 ^ sh : Nat) : Int) := by
      have ha : ((s / 2 ^ sh + 1 : Nat) : Int) = ((s / 2 ^ sh : Nat) : Int) + 1 := by
        push_cast
        ring
      have hb : ((2 ^ sh - s % 2 ^ sh : Nat) : Int)
          = (2:Int) ^ sh - ((s % 2 ^ sh : Nat) : Int) := by
        push_cast [Nat.le_of_lt hrem]
        ring
      rw [ha, hb]
      linear_combination hc2
    rw [hdiff, Int.natAbs_ofNat]
    rcases hc with hgt | ⟨heq, hodd⟩
    · exact ⟨⟨by omega, fun h => by omega⟩, by omega, by omega, fun h => by omega⟩
    · exact ⟨⟨by omega, fun h => by omega⟩, by omega, by omega, fun h => by omega⟩
  · rw [if_neg hc]
    push_neg at hc
    obtain ⟨hle, htie⟩ := hc
    have hdiff : ((s / 2 ^ sh : Nat) : Int) * 2 ^ sh - (s : Int)
        = -((s % 2 ^ sh : Nat) : Int) := by
      linear_combination hc2
    rw [hdiff, Int.natAbs_neg, Int.natAbs_ofNat]
    refine ⟨⟨by omega, fun h => ?_⟩, by omega, by omega, fun h => by omega⟩
    have heq : s % 2 ^ sh = 2 ^ (sh - 1) := by omega
    have := htie heq
    omega

/-- C4 (amended): for a non-negative finite f64 with biased exponent field `E`
(so unbiased exponent `E - 1023` is at least 0 and below the destination width)
and mantissa `m`, whenever the real source value is below `2^BITS - 1/2` — so
that the round-to-nearest result fits the destination — the conversion succeeds
and returns the correctly rounded integer under round-to-nearest-ties-to-even:
the result `q` satisfies `|q*2^52 - (2^52+m)*2^(E-1023)| <= 2^51` with any tie
resolved to an even `q`; in particular 123.499 into 7 bits gives 123 and 123.500
gives 124. When the rounded value does not fit (the claim's unconditional form),
the conversion panics instead of succeeding. -/
theorem C4_correct_rounding (B E m : Nat) (hE1 : 1023 ≤ E) (hE2 : E ≤ 2046)
    (hm : m < 2 ^ 52) (hlt : E - 1023 < B)
    (hfit : 2 * ((2 ^ 52 + m) * 2 ^ (E - 1023)) < (2 ^ (B + 1) - 1) * 2 ^ 52) :
    (∃ q, tryFromF64 B (E * 2 ^ 52 + m) = some (.ok q) ∧
      ((q : Int) * 2 ^ 52 - ((2 ^ 52 + m : Nat) : Int) * 2 ^ (E - 1023)).natAbs * 2 ≤ 2 ^ 52 ∧
      (((q : Int) * 2 ^ 52 - ((2 ^ 52 + m : Nat) : Int) * 2 ^ (E - 1023)).natAbs * 2 = 2 ^ 52 →
        q % 2 = 0)) ∧
    tryFromF64 7 (1029 * 2 ^ 52 + 4186869909826830) = some (.ok 123) ∧
    tryFromF64 7 (1029 * 2 ^ 52 + 4186940278571008) = some (.ok 124) := by
  refine ⟨?_, by decide, by decide⟩
  rw [tryFromF64_pos B E m hE1 (by omega) hm, if_neg (by omega)]
  by_cases h52 : E - 1023 < 52
  · rw [if_pos h52]
    set s : Nat := 2 ^ 52 + m with hsdef
    set sh : Nat := 52 - (E - 1023) with hshdef
    have hsh1 : 1 ≤ sh := by omega
    have hs64 : s < 2 ^ 64 := by omega
    have hse : sh + (E - 1023) = 52 := by omega
    have hcancel : (2:Nat) ^ sh * 2 ^ (E - 1023) = 2 ^ 52 := by
      rw [← pow_add, hse]
    obtain ⟨⟨hbound, htie⟩, hq1, hq2, hq3⟩ := round_shift_rne s sh hsh1 hs64
    have hsplit : 2 ^ sh * (s / 2 ^ sh) + s % 2 ^ sh = s := Nat.div_add_mod s (2 ^ sh)
    have hsh2 : sh - 1 + 1 = sh := by omega
    have hhalf : 2 ^ (sh - 1) * 2 = 2 ^ sh := by
      calc 2 ^ (sh - 1) * 2 = 2 ^ (sh - 1 + 1) := (pow_succ 2 (sh - 1)).symm
      _ = 2 ^ sh := by rw [hsh2]
    have h2s : 2 * s < (2 ^ (B + 1) - 1) * 2 ^ sh := by
      by_contra hcon
      push_neg at hcon
      have hstep : (2 ^ (B + 1) - 1) * 2 ^ 52 ≤ 2 * (s * 2 ^ (E - 1023)) := by
        calc (2 ^ (B + 1) - 1) * 2 ^ 52
            = (2 ^ (B + 1) - 1) * 2 ^ sh * 2 ^ (E - 1023) := by
              rw [mul_assoc, hcancel]
        _ ≤ 2 * s * 2 ^ (E - 1023) := mul_le_mul_right' hcon _
        _ = 2 * (s * 2 ^ (E - 1023)) := by ring
      omega
    have hqB : round_shift s sh < 2 ^ B := by
      by_contra hcon
      push_neg at hcon
      by_cases hqr : round_shift s sh = s / 2 ^ sh + 1
      · have hrem2 := hq3 hqr
        have hr0ge : 2 ^ B - 1 ≤ s / 2 ^ sh := by omega
        have hs_ge : (2 ^ B - 1) * 2 ^ sh ≤ 2 ^ sh * (s / 2 ^ sh) := by
          rw [Nat.mul_comm ((2:Nat) ^ sh)]
          exact mul_le_mul_right' hr0ge _
        have hBpos : 1 ≤ (2:Nat) ^ B := Nat.one_le_two_pow
        have hB1pos : 1 ≤ (2:Nat) ^ (B + 1) := Nat.one_le_two_pow
        have hBp : (2:Nat) ^ (B + 1) = 2 * 2 ^ B := by
          rw [pow_succ]
          ring
        have kk : 2 * ((2 ^ B - 1) * 2 ^ sh) + 2 ^ sh = (2 ^ (B + 1) - 1) * 2 ^ sh := by
          have hb : 2 * (2 ^ B - 1) + 1 = 2 ^ (B + 1) - 1 := by omega
          calc 2 * ((2 ^ B - 1) * 2 ^ sh) + 2 ^ sh
              = (2 * (2 ^ B - 1) + 1) * 2 ^ sh := by ring
          _ = (2 ^ (B + 1) - 1) * 2 ^ sh := by rw [hb]
        omega
      · have hqr0 : round_shift s sh = s / 2 ^ sh := by omega
        have hge : 2 ^ sh * 2 ^ B ≤ 2 ^ sh * (s / 2 ^ sh) := by
          apply Nat.mul_le_mul_left
          omega
        have hB1pos : 1 ≤ (2:Nat) ^ (B + 1) := Nat.one_le_two_pow
        have hBp : (2:Nat) ^ (B + 1) = 2 * 2 ^ B := by
          rw [pow_succ]
          ring
        have kk2 : (2 ^ (B + 1) - 1) * 2 ^ sh < 2 * (2 ^ sh * 2 ^ B) := by
          have hXpos : 0 < (2:Nat) ^ sh := by positivity
          calc (2 ^ (B + 1) - 1) * 2 ^ sh < 2 ^ (B + 1) * 2 ^ sh := by
                apply mul_lt_mul_of_pos_right _ hXpos
                omega
          _ = 2 * (2 ^ sh * 2 ^ B) := by
                rw [hBp]
                ring
        omega
    have hq64 : round_shift s sh < 2 ^ 64 := by
      have hds : s / 2 ^ sh ≤ s := Nat.div_le_self _ _
      omega
    have hok : tryFromU64 B (round_shift s sh) = .ok (round_shift s sh) := by
      rw [tryFromU64_eq B _ hq64, if_pos ?_]
      unfold MAX
      omega
    have hfact : ((round_shift s sh : Nat) : Int) * 2 ^ 52 - ((s : Nat) : Int) * 2 ^ (E - 1023)
        = (((round_shift s sh : Nat) : Int) * 2 ^ sh - (s : Int)) * 2 ^ (E - 1023) := by
      have hpw : ((2:Int) ^ sh) * 2 ^ (E - 1023) = 2 ^ 52 := by
        rw [← pow_add]
        exact_mod_cast congrArg (fun t => (2:Int) ^ t) hse
      calc ((round_shift s sh : Nat) : Int) * 2 ^ 52 - (s : Int) * 2 ^ (E - 1023)
          = ((round_shift s sh : Nat) : Int) * (2 ^ sh * 2 ^ (E - 1023))
            - (s : Int) * 2 ^ (E - 1023) := by rw [hpw]
      _ = (((round_shift s sh : Nat) : Int) * 2 ^ sh - (s : Int)) * 2 ^ (E - 1023) := by ring
    have habs2 : (((2:Int) ^ (E - 1023)).natAbs) = 2 ^ (E - 1023) := by
      rw [Int.natAbs_pow]
      rfl
    refine ⟨round_shift s sh, by rw [hok], ?_, ?_⟩
    · rw [hfact, Int.natAbs_mul, habs2]
      calc (((round_shift s sh : Nat) : Int) * 2 ^ sh - (s : Int)).natAbs * 2 ^ (E - 1023) * 2
          = ((((round_shift s sh : Nat) : Int) * 2 ^ sh - (s : Int)).natAbs * 2)
            * 2 ^ (E - 1023) := by ring
      _ ≤ 2 ^ sh * 2 ^ (E - 1023) := mul_le_mul_right' hbound _
      _ = 2 ^ 52 := hcancel
    · intro htie2
      apply htie
      rw [hfact, Int.natAbs_mul, habs2] at htie2
      have hepos : 0 < (2:Nat) ^ (E - 1023) := by positivity
      have h' : ((((round_shift s sh : Nat) : Int) * 2 ^ sh - (s : Int)).natAbs * 2)
          * 2 ^ (E - 1023) = 2 ^ sh * 2 ^ (E - 1023) := by
        rw [hcancel]
        calc ((((round_shift s sh : Nat) : Int) * 2 ^ sh - (s : Int)).natAbs * 2)
            * 2 ^ (E - 1023)
            = (((round_shift s sh : Nat) : Int) * 2 ^ sh - (s : Int)).natAbs
              * 2 ^ (E - 1023) * 2 := by ring
        _ = 2 ^ 52 := htie2
      exact Nat.eq_of_mul_eq_mul_right hepos h'
  · rw [if_neg h52]
    have hB53 : 53 ≤ B := by omega
    have hsok : tryFromU64 B (2 ^ 52 + m) = .ok (2 ^ 52 + m) := by
      rw [tryFromU64_eq B _ (by omega), if_pos ?_]
      unfold MAX
      have h53 : (2:Nat) ^ 53 ≤ 2 ^ B := Nat.pow_le_pow_right (by norm_num) hB53
      omega
    have hpw : (2:Int) ^ (E - 1023 - 52) * 2 ^ 52 = 2 ^ (E - 1023) := by
      have he2 : E - 1023 - 52 + 52 = E - 1023 := by omega
      calc (2:Int) ^ (E - 1023 - 52) * 2 ^ 52 = 2 ^ (E - 1023 - 52 + 52) := (pow_add 2 _ _).symm
      _ = 2 ^ (E - 1023) := by rw [he2]
    have hz : ((((2 ^ 52 + m) * 2 ^ (E - 1023 - 52) : Nat) : Int) * 2 ^ 52
        - ((2 ^ 52 + m : Nat) : Int) * 2 ^ (E - 1023)) = 0 := by
      have hcast : (((2 ^ 52 + m) * 2 ^ (E - 1023 - 52) : Nat) : Int)
          = ((2 ^ 52 + m : Nat) : Int) * (2:Int) ^ (E - 1023 - 52) := by
        push_cast
        ring
      rw [hcast, mul_assoc, hpw]
      ring
    refine ⟨(2 ^ 52 + m) * 2 ^ (E - 1023 - 52), ?_, ?_, ?_⟩
    · rw [hsok]
      have hfit2 : (2 ^ 52 + m) * 2 ^ (E - 1023 - 52) < 2 ^ B := by
        calc (2 ^ 52 + m) * 2 ^ (E - 1023 - 52)
            < 2 ^ 53 * 2 ^ (E - 1023 - 52) := by
              apply mul_lt_mul_of_pos_right _ (by positivity)
              omega
        _ = 2 ^ (53 + (E - 1023 - 52)) := by rw [pow_add]
        _ ≤ 2 ^ B := Nat.pow_le_pow_right (by norm_num) (by omega)
      show some (Except.ok ((2 ^ 52 + m) <<< (E - 1023 - 52) % 2 ^ B))
          = some (Except.ok ((2 ^ 52 + m) * 2 ^ (E - 1023 - 52)))
      rw [Nat.shiftLeft_eq, Nat.mod_eq_of_lt hfit2]
    · rw [hz]
      simp
    · intro hcontra
      rw [hz] at hcontra
      simp at hcontra

/-- The bit-exact encoder on a nonzero value of bit length at most 53 produces
the exact pattern with biased exponent `1022 + bitlen` (after the mantissa's
hidden bit is folded in) and no rounding. -/
theorem to_f64_bits_small (B v : Nat) (h0 : 0 < v) (h53 : v < 2 ^ 53) (hB : v < 2 ^ B) :
    to_f64_bits B v = (1021 + Nat.size v) * 2 ^ 52 + v * 2 ^ (53 - Nat.size v) := by
  have hsz1 : 1 ≤ Nat.size v := Nat.size_pos.mpr h0
  have hsz53 : Nat.size v ≤ 53 := Nat.size_le.mpr h53
  have hszB : Nat.size v ≤ B := Nat.size_le.mpr hB
  have hup : v < 2 ^ Nat.size v := Nat.lt_size_self v
  have hyv : v * 2 ^ (B - Nat.size v) < 2 ^ B := by
    calc v * 2 ^ (B - Nat.size v) < 2 ^ Nat.size v * 2 ^ (B - Nat.size v) :=
        mul_lt_mul_of_pos_right hup (by positivity)
    _ = 2 ^ (Nat.size v + (B - Nat.size v)) := (pow_add 2 _ _).symm
    _ = 2 ^ B := by congr 1; omega
  have ha53 : v * 2 ^ (53 - Nat.size v) < 2 ^ 53 := by
    calc v * 2 ^ (53 - Nat.size v) < 2 ^ Nat.size v * 2 ^ (53 - Nat.size v) :=
        mul_lt_mul_of_pos_right hup (by positivity)
    _ = 2 ^ (Nat.size v + (53 - Nat.size v)) := (pow_add 2 _ _).symm
    _ = 2 ^ 53 := by congr 1; omega
  have hy : (v <<< (B - Nat.size v)) % 2 ^ B = v * 2 ^ (B - Nat.size v) := by
    rw [Nat.shiftLeft_eq, Nat.mod_eq_of_lt hyv]
  have he : 1021 + B - (B - Nat.size v) = 1021 + Nat.size v := by omega
  have hfactor : v * 2 ^ (B - Nat.size v) = v * 2 ^ (53 - Nat.size v) * 2 ^ (B - 53) ∨ B < 53 := by
    rcases le_or_lt 53 B with hc | hc
    · left
      rw [mul_assoc, ← pow_add]
      congr 2
      omega
    · right
      exact hc
  simp only [to_f64_bits, leading_zeros, bit_len]
  rw [if_neg (by omega), hy, he, if_neg (by omega)]
  by_cases hB53 : B ≥ 53
  · rw [if_pos hB53]
    have hashift : (v * 2 ^ (B - Nat.size v)) >>> (B - 53) = v * 2 ^ (53 - Nat.size v) := by
      rw [Nat.shiftRight_eq_div_pow]
      rcases hfactor with hf | hf
      · rw [hf, Nat.mul_div_cancel _ (by positivity)]
      · omega
    have halimb : limb (v * 2 ^ (53 - Nat.size v)) 0 = v * 2 ^ (53 - Nat.size v) :=
      limb_zero _ (by omega)
    rw [hashift, halimb]
    by_cases hBgt : B > 53
    · rw [if_pos hBgt]
      have hone : ((1 <<< (B - 53)) % 2 ^ B) = 2 ^ (B - 53) := by
        rw [Nat.shiftLeft_eq, one_mul,
            Nat.mod_eq_of_lt (Nat.pow_lt_pow_right (by norm_num) (by omega))]
      have hmask : (2 ^ (B - 53) + (2 ^ B - 1)) % 2 ^ B = 2 ^ (B - 53) - 1 := by
        have hp1 : 1 ≤ (2:Nat) ^ (B - 53) := Nat.one_le_two_pow
        have hlt2 : 2 ^ (B - 53) - 1 < 2 ^ B := by
          have := Nat.pow_lt_pow_right (a := 2) (by norm_num) (show B - 53 < B by omega)
          omega
        have heq2 : 2 ^ (B - 53) + (2 ^ B - 1) = 2 ^ B + (2 ^ (B - 53) - 1) := by omega
        rw [heq2, Nat.add_mod_left, Nat.mod_eq_of_lt hlt2]
      have htail : (v * 2 ^ (B - Nat.size v)) &&& (2 ^ (B - 53) - 1) = 0 := by
        rw [Nat.and_pow_two_sub_one_eq_mod]
        rcases hfactor with hf | hf
        · rw [hf, Nat.mul_mod_left]
        · omega
      rw [hone, hmask, htail]
      simp [limb, Nat.shiftLeft_eq]
    · rw [if_neg hBgt]
      simp [Nat.shiftLeft_eq]
  · rw [if_neg hB53]
    have hylimb : limb (v * 2 ^ (B - Nat.size v)) 0 = v * 2 ^ (B - Nat.size v) := by
      apply limb_zero
      have hcmp : (2:Nat) ^ B ≤ 2 ^ 64 := Nat.pow_le_pow_right (by norm_num) (by omega)
      omega
    have hashl : ((v * 2 ^ (B - Nat.size v)) <<< (53 - B)) % 2 ^ 64 = v * 2 ^ (53 - Nat.size v) := by
      rw [Nat.shiftLeft_eq, mul_assoc, ← pow_add]
      have hee : B - Nat.size v + (53 - B) = 53 - Nat.size v := by omega
      rw [hee, Nat.mod_eq_of_lt (by omega)]
    rw [hylimb, hashl, if_neg (by omega)]
    simp [Nat.shiftLeft_eq]

/-- C3 (confirmed): float round-trip — every nonzero value of bit length at most
53 encodes through `to_f64_bits` to the exact IEEE-754 binary64 pattern of that
integer (no rounding), and converting that pattern back through `TryFrom<f64>`
returns the original value. -/
theorem C3_float_round_trip (B v : Nat) (h0 : 0 < v) (h53 : v < 2 ^ 53) (hB : v < 2 ^ B) :
    to_f64_bits B v = exactF64Pattern v ∧
    tryFromF64 B (to_f64_bits B v) = some (.ok v) := by
  have hsz1 : 1 ≤ Nat.size v := Nat.size_pos.mpr h0
  have hsz53 : Nat.size v ≤ 53 := Nat.size_le.mpr h53
  have hszB : Nat.size v ≤ B := Nat.size_le.mpr hB
  have hup : v < 2 ^ Nat.size v := Nat.lt_size_self v
  have hlow : 2 ^ (Nat.size v - 1) ≤ v := Nat.lt_size.mp (by omega)
  have hsmall := to_f64_bits_small B v h0 h53 hB
  have halow : 2 ^ 52 ≤ v * 2 ^ (53 - Nat.size v) := by
    calc (2:Nat) ^ 52 = 2 ^ (Nat.size v - 1) * 2 ^ (53 - Nat.size v) := by
          rw [← pow_add]; congr 1; omega
    _ ≤ v * 2 ^ (53 - Nat.size v) := mul_le_mul_right' hlow _
  have haup : v * 2 ^ (53 - Nat.size v) < 2 ^ 53 := by
    calc v * 2 ^ (53 - Nat.size v) < 2 ^ Nat.size v * 2 ^ (53 - Nat.size v) :=
        mul_lt_mul_of_pos_right hup (by positivity)
    _ = 2 ^ (Nat.size v + (53 - Nat.size v)) := (pow_add 2 _ _).symm
    _ = 2 ^ 53 := by congr 1; omega
  have hpat : to_f64_bits B v
      = (1022 + Nat.size v) * 2 ^ 52 + (v * 2 ^ (53 - Nat.size v) - 2 ^ 52) := by
    rw [hsmall]
    omega
  refine ⟨by rw [hpat, exactF64Pattern], ?_⟩
  rw [hpat, tryFromF64_pos B (1022 + Nat.size v) (v * 2 ^ (53 - Nat.size v) - 2 ^ 52)
    (by omega) (by omega) (by omega), if_neg (by omega)]
  have hsval : 2 ^ 52 + (v * 2 ^ (53 - Nat.size v) - 2 ^ 52) = v * 2 ^ (53 - Nat.size v) := by
    omega
  rw [hsval]
  have hok : tryFromU64 B v = .ok v := by
    rw [tryFromU64_eq B v (by omega), if_pos ?_]
    unfold MAX
    omega
  by_cases hsz52 : Nat.size v ≤ 52
  · rw [if_pos (by omega)]
    have hshval : 52 - (1022 + Nat.size v - 1023) = 53 - Nat.size v := by omega
    rw [hshval]
    have hround : round_shift (v * 2 ^ (53 - Nat.size v)) (53 - Nat.size v) = v := by
      rw [round_shift_eq _ _ (by omega) (by omega)]
      have hdiv : v * 2 ^ (53 - Nat.size v) / 2 ^ (53 - Nat.size v) = v :=
        Nat.mul_div_cancel _ (by positivity)
      have hmod : v * 2 ^ (53 - Nat.size v) % 2 ^ (53 - Nat.size v) = 0 := Nat.mul_mod_left _ _
      rw [hdiv, hmod, if_neg ?_]
      rintro (hcon | ⟨hcon, -⟩)
      · exact absurd hcon (Nat.not_lt_zero _)
      · have hp : 0 < (2:Nat) ^ (53 - Nat.size v - 1) := by positivity
        omega
    rw [hround, hok]
  · have hsz : Nat.size v = 53 := by omega
    rw [if_neg (by omega)]
    have hval : v * 2 ^ (53 - Nat.size v) = v := by
      rw [hsz]
      norm_num
    rw [hval, hok]
    have hexp0 : 1022 + Nat.size v - 1023 - 52 = 0 := by omega
    rw [hexp0]
    show some (Except.ok (v <<< 0 % 2 ^ B)) = some (Except.ok v)
    rw [Nat.shiftLeft_eq, pow_zero, mul_one, Nat.mod_eq_of_lt hB]

/-- Witness for C3 at `BITS = 64, v = 5`. -/
theorem C3_float_round_trip_witness :
    to_f64_bits 64 5 = exactF64Pattern 5 ∧
    tryFromF64 64 (to_f64_bits 64 5) = some (.ok 5) :=
  C3_float_round_trip 64 5 (by norm_num) (by norm_num) (by norm_num)

/-- C4 counterexample: the bit pattern of 127.5 (biased exponent field 1029,
unbiased exponent 6, below the width 7) rounds to 128, which does not fit
`Uint<7>`: the conversion panics via the internal `Self::from` call instead of
succeeding with a correctly rounded value. -/
theorem C4_counterexample :
    tryFromF64 7 (1029 * 2 ^ 52 + 4468415255281664) = none := by decide

/-- Witness for C4 (amended) at the bit pattern of 123.499 into width 7. -/
theorem C4_correct_rounding_witness :
    ∃ q, tryFromF64 7 (1029 * 2 ^ 52 + 4186869909826830) = some (.ok q) ∧
      ((q : Int) * 2 ^ 52 - ((2 ^ 52 + 4186869909826830 : Nat) : Int) * 2 ^ (1029 - 1023)).natAbs
        * 2 ≤ 2 ^ 52 ∧
      (((q : Int) * 2 ^ 52
          - ((2 ^ 52 + 4186869909826830 : Nat) : Int) * 2 ^ (1029 - 1023)).natAbs * 2 = 2 ^ 52 →
        q % 2 = 0) :=
  (C4_correct_rounding 7 1029 4186869909826830 (by norm_num) (by norm_num) (by norm_num)
    (by norm_num) (by norm_num)).1

/-- Witness for C10 at the positive-sign NaN pattern 0x7FF8000000000000, width 8. -/
theorem C10_no_nan_error_witness :
    tryFromF64 8 0x7FF8000000000000 ≠ some (.error (.notANumber 8)) ∧
    tryFromF64 8 0x7FF8000000000000 = some (.error (.valueTooLarge 8 (MAX 8))) :=
  ⟨(C10_no_nan_error 8 0x7FF8000000000000 (by norm_num)).1 8,
   (C10_no_nan_error 8 0x7FF8000000000000 (by norm_num)).2 (by norm_num) (by norm_num)
     (by norm_num)⟩

end UintFrom
